import Mathlib

/-!
Shallow embedding of the `moving_median` crate (`src/lib.rs`).

The crate provides `MovingMedian<T, N>`: a fixed-capacity ring buffer of
`N` samples with operations `new`, `add_value`, `median`, `clear`.  The
element type `T` is generic over an ordered numeric scalar; we model it by
`ℚ`, which has exact addition, division and a total order.  The buffer is a
`List ℚ` of length `N`, and the two `usize` fields are `Nat`s.  Fallible
steps of the Rust code (array indexing, the `% N` index advance) are
modelled with `Option`: `none` is the panic branch.
-/

namespace MovingMedianSpec

/-- One inner pass of the bubble sort in `MovingMedian::median`: the loop
`for j in 0..bound` compares adjacent entries `buf[j] > buf[j+1]` and swaps
them, modelled structurally on lists (the larger head is carried forward). -/
def bubbleStep : List ℚ → Nat → List ℚ
  | xs, 0 => xs
  | x :: y :: rest, m + 1 =>
      if x > y then y :: bubbleStep (x :: rest) m
      else x :: bubbleStep (y :: rest) m
  | xs, _ + 1 => xs

/-- Guarded inner pass: `none` models the out-of-bounds panic of
`sorted_buffer[j]` / `sorted_buffer[j + 1]` when the bound reaches past the
end of the array. -/
def bubbleStepC : List ℚ → Nat → Option (List ℚ)
  | xs, 0 => some xs
  | x :: y :: rest, m + 1 =>
      if x > y then (bubbleStepC (x :: rest) m).map (y :: ·)
      else (bubbleStepC (y :: rest) m).map (x :: ·)
  | _, _ + 1 => none

/-- The outer loop of the bubble sort in `MovingMedian::median`:
`for i in 0..count` runs inner passes with bounds
`count - i - 1`, i.e. `count - 1, count - 2, ..., 0`. -/
def bubbleSort : List ℚ → Nat → List ℚ
  | xs, 0 => xs
  | xs, n + 1 => bubbleSort (bubbleStep xs n) n

/-- Guarded outer loop of the bubble sort. -/
def bubbleSortC : List ℚ → Nat → Option (List ℚ)
  | xs, 0 => some xs
  | xs, n + 1 => (bubbleStepC xs n).bind (fun ys => bubbleSortC ys n)

/-- The state of `MovingMedian<T, N>`: the fixed-size `buffer` (length `N`),
the ring `index` of the next slot to write, and the `count` of live
samples. -/
structure MovingMedian where
  buffer : List ℚ
  index : Nat
  count : Nat
deriving DecidableEq

/-- Model of `MovingMedian::new`: all slots at the default (zero) value,
`index = 0`, `count = 0`. -/
def MovingMedian.new (N : Nat) : MovingMedian :=
  ⟨List.replicate N 0, 0, 0⟩

/-- Model of `MovingMedian::add_value`: store `value` at `buffer[index]` (panic
branch `none` if the index is out of bounds), advance
`index = (index + 1) % N` (panic branch `none` if `N = 0`), and increment
`count` while `count < N`. -/
def MovingMedian.add_value (N : Nat) (s : MovingMedian) (v : ℚ) : Option MovingMedian :=
  if s.index < s.buffer.length then
    if 0 < N then
      some ⟨s.buffer.set s.index v, (s.index + 1) % N,
            if s.count < N then s.count + 1 else s.count⟩
    else none
  else none

/-- Model of `MovingMedian::median`: return `0` when `count = 0`; otherwise bubble
sort a copy of the buffer (bounds driven by `count`) and return the middle
element for odd `count`, or the average of the two middle elements for even
`count`.  Every array access and the `count / 2 - 1` subtraction are
guarded; `none` is the panic branch. -/
def MovingMedian.median (s : MovingMedian) : Option ℚ :=
  if s.count = 0 then some 0
  else
    (bubbleSortC s.buffer s.count).bind (fun sorted =>
      if s.count % 2 = 0 then
        if s.count / 2 = 0 then none
        else
          (sorted.get? (s.count / 2 - 1)).bind (fun a =>
            (sorted.get? (s.count / 2)).bind (fun b =>
              some ((a + b) / 2)))
      else sorted.get? (s.count / 2))

/-- Model of `MovingMedian::median` together with the state it leaves behind: the Rust body takes `&self` and and sorts a local copy
`sorted_buffer`, never writing to `self`; the pair returned here is the
computed value together with the resulting state. -/
def MovingMedian.medianFull (s : MovingMedian) : Option (ℚ × MovingMedian) :=
  s.median.map (fun q => (q, s))

/-- Model of `MovingMedian::clear`: refill the buffer with default (zero) values and
reset `count` and `index` to `0`. -/
def MovingMedian.clear (N : Nat) (_s : MovingMedian) : MovingMedian :=
  ⟨List.replicate N 0, 0, 0⟩

/-- The mutating operations a caller can perform on the filter. -/
inductive Op where
  | add : ℚ → Op
  | clear : Op
deriving DecidableEq

/-- Run a sequence of operations, propagating the panic branch. -/
def runOps (N : Nat) : MovingMedian → List Op → Option MovingMedian
  | s, [] => some s
  | s, Op.add v :: rest => (s.add_value N v).bind (fun t => runOps N t rest)
  | s, Op.clear :: rest => runOps N (s.clear N) rest

/-- A state is reachable when some operation sequence from `new` produces
it without hitting a panic branch. -/
def Reachable (N : Nat) (s : MovingMedian) : Prop :=
  ∃ ops : List Op, runOps N (MovingMedian.new N) ops = some s

/-- Run a sequence of additions, propagating the panic branch. -/
def runAdds (N : Nat) : MovingMedian → List ℚ → Option MovingMedian
  | s, [] => some s
  | s, v :: rest => (s.add_value N v).bind (fun t => runAdds N t rest)

/-- Modelled from the spec: the true median of a bag of values — sort the
values ascending; an odd count takes the element at index `k / 2`, an even
count averages the elements at indices `k / 2 - 1` and `k / 2`. -/
def trueMedian (l : List ℚ) : ℚ :=
  if l.length % 2 = 0 then
    ((l.insertionSort (· ≤ ·)).getD (l.length / 2 - 1) 0 +
      (l.insertionSort (· ≤ ·)).getD (l.length / 2) 0) / 2
  else (l.insertionSort (· ≤ ·)).getD (l.length / 2) 0

/-- The structural invariant of a filter of capacity `N`: the buffer has
physical length `N`, the live count never exceeds `N`, the write index is
in bounds, and before the buffer first fills the write index equals the
live count (the live samples are exactly the prefix of length `count`). -/
def Inv (N : Nat) (s : MovingMedian) : Prop :=
  s.buffer.length = N ∧ s.count ≤ N ∧ s.index < N ∧ (s.count < N → s.index = s.count)

/-! Correctness of the bubble sort used by `median`. -/

theorem bubbleStep_zero (xs : List ℚ) : bubbleStep xs 0 = xs := by
  match xs with
  | [] => rfl
  | [x] => rfl
  | x :: y :: rest => rfl

theorem bubbleStepC_zero (xs : List ℚ) : bubbleStepC xs 0 = some xs := by
  match xs with
  | [] => rfl
  | [x] => rfl
  | x :: y :: rest => rfl

theorem bubbleStep_length (m : Nat) (xs : List ℚ) :
    (bubbleStep xs m).length = xs.length := by
  induction m generalizing xs with
  | zero => rw [bubbleStep_zero]
  | succ m ih =>
    match xs with
    | [] => rfl
    | [x] => rfl
    | x :: y :: rest =>
      simp only [bubbleStep]
      split <;> simp [ih]

theorem bubbleStep_perm (m : Nat) (xs : List ℚ) : (bubbleStep xs m).Perm xs := by
  induction m generalizing xs with
  | zero => rw [bubbleStep_zero]
  | succ m ih =>
    match xs with
    | [] => exact List.Perm.refl _
    | [x] => exact List.Perm.refl _
    | x :: y :: rest =>
      simp only [bubbleStep]
      split
      · exact ((ih (x :: rest)).cons y).trans (List.Perm.swap x y rest)
      · exact (ih (y :: rest)).cons x

theorem bubbleStep_append (m : Nat) (xs ys : List ℚ) (h : m < xs.length) :
    bubbleStep (xs ++ ys) m = bubbleStep xs m ++ ys := by
  induction m generalizing xs with
  | zero => rw [bubbleStep_zero, bubbleStep_zero]
  | succ m ih =>
    match xs with
    | [] => simp at h
    | [x] => simp only [List.length_cons, List.length_nil] at h; omega
    | x :: y :: rest =>
      simp only [List.length_cons] at h
      have hx : bubbleStep (x :: (rest ++ ys)) m = bubbleStep (x :: rest) m ++ ys :=
        ih (x :: rest) (by simp; omega)
      have hy : bubbleStep (y :: (rest ++ ys)) m = bubbleStep (y :: rest) m ++ ys :=
        ih (y :: rest) (by simp; omega)
      show bubbleStep (x :: y :: (rest ++ ys)) (m + 1) =
        bubbleStep (x :: y :: rest) (m + 1) ++ ys
      simp only [bubbleStep]
      split
      · rw [hx]; rfl
      · rw [hy]; rfl

theorem bubbleStep_full (l : List ℚ) : ∀ x : ℚ, ∃ t z,
    bubbleStep (x :: l) l.length = t ++ [z] ∧
    (x :: l).Perm (t ++ [z]) ∧ ∀ a ∈ x :: l, a ≤ z := by
  induction l with
  | nil =>
    intro x
    exact ⟨[], x, rfl, List.Perm.refl _, by simp⟩
  | cons y rest ih =>
    intro x
    simp only [List.length_cons, bubbleStep]
    split
    · rename_i hxy
      obtain ⟨t, z, heq, hperm, hle⟩ := ih x
      refine ⟨y :: t, z, ?_, ?_, ?_⟩
      · rw [heq]; rfl
      · exact (List.Perm.swap y x rest).trans (hperm.cons y)
      · intro a ha
        rcases List.mem_cons.mp ha with rfl | ha'
        · exact hle a (List.mem_cons_self _ _)
        · rcases List.mem_cons.mp ha' with rfl | ha''
          · exact le_trans (le_of_lt hxy) (hle x (List.mem_cons_self _ _))
          · exact hle a (List.mem_cons_of_mem _ ha'')
    · rename_i hxy
      have hxy' : x ≤ y := le_of_not_lt hxy
      obtain ⟨t, z, heq, hperm, hle⟩ := ih y
      refine ⟨x :: t, z, ?_, ?_, ?_⟩
      · rw [heq]; rfl
      · exact hperm.cons x
      · intro a ha
        rcases List.mem_cons.mp ha with rfl | ha'
        · exact le_trans hxy' (hle y (List.mem_cons_self _ _))
        · exact hle a ha'

theorem bubbleSort_length (n : Nat) (xs : List ℚ) :
    (bubbleSort xs n).length = xs.length := by
  induction n generalizing xs with
  | zero => rfl
  | succ n ih =>
    simp only [bubbleSort]
    rw [ih, bubbleStep_length]

theorem bubbleSort_perm (n : Nat) (xs : List ℚ) : (bubbleSort xs n).Perm xs := by
  induction n generalizing xs with
  | zero => exact List.Perm.refl _
  | succ n ih => exact (ih _).trans (bubbleStep_perm n xs)

theorem bubbleSort_append (n : Nat) (xs ys : List ℚ) (h : n ≤ xs.length) :
    bubbleSort (xs ++ ys) n = bubbleSort xs n ++ ys := by
  induction n generalizing xs with
  | zero => rfl
  | succ n ih =>
    simp only [bubbleSort]
    rw [bubbleStep_append n xs ys h, ih _ (by rw [bubbleStep_length]; omega)]

theorem bubbleSort_sorted : ∀ (n : Nat) (l : List ℚ), l.length = n →
    (bubbleSort l n).Sorted (· ≤ ·) := by
  intro n
  induction n with
  | zero =>
    intro l hl
    rw [List.length_eq_zero] at hl
    subst hl
    exact List.sorted_nil
  | succ n ih =>
    intro l hl
    cases l with
    | nil => simp at hl
    | cons x l' =>
      have hl' : l'.length = n := by simpa using hl
      obtain ⟨t, z, heq, hperm, hle⟩ := bubbleStep_full l' x
      rw [hl'] at heq
      have ht : t.length = n := by
        have := bubbleStep_length n (x :: l')
        rw [heq] at this
        simp at this
        omega
      simp only [bubbleSort]
      rw [heq, bubbleSort_append n t [z] (le_of_eq ht.symm)]
      rw [List.Sorted, List.pairwise_append]
      refine ⟨ih t ht, List.pairwise_singleton _ _, ?_⟩
      intro a ha b hb
      rcases List.mem_singleton.mp hb with rfl
      have hat : a ∈ t := (bubbleSort_perm n t).subset ha
      exact hle a (hperm.symm.subset (List.mem_append_left _ hat))

theorem bubbleSort_eq_insertionSort (l : List ℚ) :
    bubbleSort l l.length = l.insertionSort (· ≤ ·) :=
  List.eq_of_perm_of_sorted
    ((bubbleSort_perm _ _).trans (List.perm_insertionSort _ _).symm)
    (bubbleSort_sorted _ _ rfl)
    (List.sorted_insertionSort _ _)

theorem bubbleStepC_eq (m : Nat) (xs : List ℚ) (h : m < xs.length) :
    bubbleStepC xs m = some (bubbleStep xs m) := by
  induction m generalizing xs with
  | zero => rw [bubbleStepC_zero, bubbleStep_zero]
  | succ m ih =>
    match xs with
    | [] => simp at h
    | [x] => simp only [List.length_cons, List.length_nil] at h; omega
    | x :: y :: rest =>
      simp only [List.length_cons] at h
      simp only [bubbleStepC, bubbleStep]
      split
      · rw [ih (x :: rest) (by simp; omega)]; rfl
      · rw [ih (y :: rest) (by simp; omega)]; rfl

theorem bubbleSortC_eq (n : Nat) (xs : List ℚ) (h : n ≤ xs.length) :
    bubbleSortC xs n = some (bubbleSort xs n) := by
  induction n generalizing xs with
  | zero => rfl
  | succ n ih =>
    simp only [bubbleSortC, bubbleSort]
    rw [bubbleStepC_eq n xs h]
    exact ih _ (by rw [bubbleStep_length]; omega)

/-! Evaluation of `median` on a well-formed state. -/

theorem get?_eq_some_getD (l : List ℚ) (i : Nat) (h : i < l.length) :
    l.get? i = some (l.getD i 0) := by
  rw [List.getD_eq_get?, List.get?_eq_get h]
  rfl

theorem median_eq (s : MovingMedian) (h0 : s.count ≠ 0) (h : s.count ≤ s.buffer.length) :
    s.median = some (trueMedian (s.buffer.take s.count)) := by
  have htl : (s.buffer.take s.count).length = s.count := by
    rw [List.length_take]
    omega
  have hsort : bubbleSort s.buffer s.count =
      (s.buffer.take s.count).insertionSort (· ≤ ·) ++ s.buffer.drop s.count := by
    conv_lhs => rw [← List.take_append_drop s.count s.buffer]
    rw [bubbleSort_append _ _ _ (le_of_eq htl.symm)]
    congr 1
    have h2 := bubbleSort_eq_insertionSort (s.buffer.take s.count)
    rwa [htl] at h2
  have hLlen : ((s.buffer.take s.count).insertionSort (· ≤ ·)).length = s.count := by
    rw [List.length_insertionSort, htl]
  have hget : ∀ i, i < s.count → (bubbleSort s.buffer s.count).get? i =
      some (((s.buffer.take s.count).insertionSort (· ≤ ·)).getD i 0) := by
    intro i hi
    rw [hsort, List.get?_append (by rw [hLlen]; exact hi),
      get?_eq_some_getD _ _ (by rw [hLlen]; exact hi)]
  unfold MovingMedian.median
  rw [if_neg h0, bubbleSortC_eq _ _ h, Option.some_bind]
  unfold trueMedian
  rw [htl]
  by_cases hpar : s.count % 2 = 0
  · rw [if_pos hpar, if_pos hpar, if_neg (show ¬s.count / 2 = 0 by omega),
      hget (s.count / 2 - 1) (by omega), Option.some_bind,
      hget (s.count / 2) (by omega), Option.some_bind]
  · rw [if_neg hpar, if_neg hpar, hget (s.count / 2) (by omega)]

theorem insertionSort_eq_of_perm (l l' : List ℚ) (h : l.Perm l') :
    l.insertionSort (· ≤ ·) = l'.insertionSort (· ≤ ·) :=
  List.eq_of_perm_of_sorted
    ((List.perm_insertionSort _ _).trans (h.trans (List.perm_insertionSort _ _).symm))
    (List.sorted_insertionSort _ _)
    (List.sorted_insertionSort _ _)

theorem trueMedian_perm (l l' : List ℚ) (h : l.Perm l') : trueMedian l = trueMedian l' := by
  unfold trueMedian
  rw [insertionSort_eq_of_perm l l' h, h.length_eq]

/-! Characterization of the state after a sequence of additions. -/

theorem mod_add_one_mod (k N : Nat) : (k % N + 1) % N = (k + 1) % N :=
  Nat.ModEq.add_right 1 (Nat.mod_modEq k N)

theorem set_rotate (b : List ℚ) (i : Nat) (v : ℚ) (h : i < b.length) :
    (b.set i v).rotate ((i + 1) % b.length) = (b.rotate i).drop 1 ++ [v] := by
  have hti : (b.take i).length = i := by rw [List.length_take]; omega
  have hrot : b.rotate i = b.drop i ++ b.take i :=
    List.rotate_eq_drop_append_take (le_of_lt h)
  have hdrop1 : (b.rotate i).drop 1 = b.drop (i + 1) ++ b.take i := by
    rw [hrot, List.drop_append_of_le_length (by rw [List.length_drop]; omega),
      List.drop_drop]
  have hset : b.set i v = b.take i ++ v :: b.drop (i + 1) :=
    List.set_eq_take_cons_drop v h
  rcases Nat.lt_or_ge (i + 1) b.length with hlt | hge
  · rw [Nat.mod_eq_of_lt hlt,
      List.rotate_eq_drop_append_take (by rw [List.length_set]; omega), hset, hdrop1,
      show i + 1 = (b.take i).length + 1 by rw [hti],
      List.drop_append, List.take_append]
    simp [List.append_assoc]
  · have hiN : i + 1 = b.length := by omega
    rw [hiN, Nat.mod_self, List.rotate_zero, hset, hdrop1, hiN, List.drop_length]
    simp

theorem runAdds_append (N : Nat) (s : MovingMedian) (xs : List ℚ) (v : ℚ) :
    runAdds N s (xs ++ [v]) = (runAdds N s xs).bind (fun t => t.add_value N v) := by
  induction xs generalizing s with
  | nil =>
    simp only [List.nil_append, runAdds, Option.some_bind]
    cases s.add_value N v <;> rfl
  | cons w ws ih =>
    simp only [List.cons_append, runAdds]
    cases s.add_value N w with
    | none => rfl
    | some t =>
      simp only [Option.some_bind]
      exact ih t

theorem add_value_eq (N : Nat) (s : MovingMedian) (v : ℚ) (hN : 0 < N)
    (hlen : s.buffer.length = N) (hidx : s.index < N) :
    s.add_value N v = some ⟨s.buffer.set s.index v, (s.index + 1) % N,
      if s.count < N then s.count + 1 else s.count⟩ := by
  unfold MovingMedian.add_value
  rw [if_pos (by rw [hlen]; exact hidx), if_pos hN]

theorem runAdds_spec (N : Nat) (hN : 0 < N) (xs : List ℚ) :
    ∃ s, runAdds N (MovingMedian.new N) xs = some s ∧
      s.buffer.length = N ∧
      s.count = min xs.length N ∧
      s.index = xs.length % N ∧
      (xs.length ≤ N → s.buffer = xs ++ List.replicate (N - xs.length) 0) ∧
      (N ≤ xs.length → s.buffer.rotate (xs.length % N) = xs.drop (xs.length - N)) := by
  induction xs using List.reverseRecOn with
  | nil =>
    refine ⟨MovingMedian.new N, rfl, by simp [MovingMedian.new], by simp [MovingMedian.new],
      by simp [MovingMedian.new], fun _ => by simp [MovingMedian.new],
      fun hc => absurd hc (by simp only [List.length_nil]; omega)⟩
  | append_singleton xs v ih =>
    obtain ⟨s, hrun, hlen, hcount, hidx, hpre, hrot⟩ := ih
    have hidxlt : s.index < N := by rw [hidx]; exact Nat.mod_lt _ hN
    have hadd := add_value_eq N s v hN hlen hidxlt
    have hxl : (xs ++ [v]).length = xs.length + 1 := by simp
    refine ⟨⟨s.buffer.set s.index v, (s.index + 1) % N,
      if s.count < N then s.count + 1 else s.count⟩, ?_, ?_, ?_, ?_, ?_, ?_⟩
    · rw [runAdds_append, hrun, Option.some_bind, hadd]
    · show (s.buffer.set s.index v).length = N
      rw [List.length_set, hlen]
    · show (if s.count < N then s.count + 1 else s.count) = min (xs ++ [v]).length N
      rw [hxl, hcount]
      split <;> omega
    · show (s.index + 1) % N = (xs ++ [v]).length % N
      rw [hxl, hidx, mod_add_one_mod]
    · intro h1
      rw [hxl] at h1
      show s.buffer.set s.index v = (xs ++ [v]) ++ List.replicate (N - (xs ++ [v]).length) 0
      have hk : xs.length < N := by omega
      have hidxk : s.index = xs.length := by rw [hidx]; exact Nat.mod_eq_of_lt hk
      rw [hxl, hidxk, hpre (le_of_lt hk),
        List.set_eq_take_cons_drop v (by simp [List.length_replicate]; omega),
        List.take_left',
        show xs.length + 1 = xs.length + 1 from rfl]
      · rw [show List.drop (xs.length + 1) (xs ++ List.replicate (N - xs.length) 0) =
              List.drop 1 (List.replicate (N - xs.length) (0:ℚ)) from List.drop_append 1,
          List.drop_replicate]
        simp only [List.append_assoc, List.cons_append, List.nil_append, Nat.sub_sub]
      · rfl
    · intro h2
      rw [hxl] at h2
      show (s.buffer.set s.index v).rotate ((xs ++ [v]).length % N) =
        (xs ++ [v]).drop ((xs ++ [v]).length - N)
      rw [hxl]
      rcases Nat.lt_or_ge xs.length N with hk | hk
      · have hkN : xs.length + 1 = N := by omega
        have hidxk : s.index = xs.length := by rw [hidx]; exact Nat.mod_eq_of_lt hk
        have hone : List.replicate (N - xs.length) (0:ℚ) = [0] := by
          rw [show N - xs.length = 1 by omega]
          rfl
        rw [hidxk, hpre (le_of_lt hk), hone, hkN, Nat.mod_self, List.rotate_zero,
          Nat.sub_self, List.drop_zero,
          List.set_eq_take_cons_drop v (by simp),
          List.take_left',
          show List.drop (xs.length + 1) (xs ++ [(0:ℚ)]) =
            List.drop 1 [(0:ℚ)] from List.drop_append 1]
        · rfl
        · rfl
      · have hrot' := hrot hk
        rw [hidx, ← mod_add_one_mod]
        have h3 := set_rotate s.buffer (xs.length % N) v (by rw [hlen]; exact Nat.mod_lt _ hN)
        rw [hlen] at h3
        rw [h3, hrot', List.drop_drop,
          List.drop_append_of_le_length (by omega),
          show xs.length - N + 1 = xs.length + 1 - N by omega]

/-! The structural invariant holds in every reachable state. -/

theorem inv_new (N : Nat) (hN : 0 < N) : Inv N (MovingMedian.new N) :=
  ⟨by simp [MovingMedian.new], by simp [MovingMedian.new],
    by simpa [MovingMedian.new] using hN, fun _ => rfl⟩

theorem inv_clear (N : Nat) (s : MovingMedian) (hN : 0 < N) : Inv N (s.clear N) :=
  ⟨by simp [MovingMedian.clear], by simp [MovingMedian.clear],
    by simpa [MovingMedian.clear] using hN, fun _ => rfl⟩

theorem inv_add (N : Nat) (s : MovingMedian) (v : ℚ) (hN : 0 < N) (hinv : Inv N s) :
    ∃ t, s.add_value N v = some t ∧ Inv N t := by
  obtain ⟨hlen, hcount, hidx, hic⟩ := hinv
  refine ⟨_, add_value_eq N s v hN hlen hidx, ?_, ?_, ?_, ?_⟩
  · show (s.buffer.set s.index v).length = N
    rw [List.length_set, hlen]
  · show (if s.count < N then s.count + 1 else s.count) ≤ N
    split <;> omega
  · show (s.index + 1) % N < N
    exact Nat.mod_lt _ hN
  · intro hlt
    show (s.index + 1) % N = if s.count < N then s.count + 1 else s.count
    by_cases hc : s.count < N
    · rw [if_pos hc] at hlt ⊢
      rw [hic hc]
      exact Nat.mod_eq_of_lt hlt
    · rw [if_neg hc] at hlt
      exact absurd hlt hc

theorem inv_runOps (N : Nat) (hN : 0 < N) (ops : List Op) (t s : MovingMedian)
    (ht : Inv N t) (h : runOps N t ops = some s) : Inv N s := by
  induction ops generalizing t with
  | nil =>
    simp only [runOps] at h
    obtain rfl := Option.some_inj.mp h
    exact ht
  | cons op rest ih =>
    cases op with
    | add v =>
      simp only [runOps] at h
      obtain ⟨t1, h1, hinv1⟩ := inv_add N t v hN ht
      rw [h1, Option.some_bind] at h
      exact ih t1 hinv1 h
    | clear =>
      simp only [runOps] at h
      exact ih _ (inv_clear N t hN) h

theorem reachable_inv (N : Nat) (hN : 0 < N) (s : MovingMedian) (h : Reachable N s) :
    Inv N s := by
  obtain ⟨ops, hops⟩ := h
  exact inv_runOps N hN ops _ s (inv_new N hN) hops

theorem median_isSome (N : Nat) (s : MovingMedian) (hinv : Inv N s) :
    ∃ q, s.median = some q := by
  obtain ⟨hlen, hcount, _, _⟩ := hinv
  by_cases h0 : s.count = 0
  · refine ⟨0, ?_⟩
    unfold MovingMedian.median
    rw [if_pos h0]
  · exact ⟨_, median_eq s h0 (by omega)⟩

theorem new_zero_add_none (v : ℚ) : (MovingMedian.new 0).add_value 0 v = none := by
  unfold MovingMedian.add_value
  rw [if_neg]
  simp [MovingMedian.new]

theorem runOps_zero (ops : List Op) (s : MovingMedian)
    (h : runOps 0 (MovingMedian.new 0) ops = some s) : s = MovingMedian.new 0 := by
  induction ops with
  | nil =>
    simp only [runOps] at h
    exact (Option.some_inj.mp h).symm
  | cons op rest ih =>
    cases op with
    | add v =>
      simp only [runOps] at h
      rw [new_zero_add_none v] at h
      exact absurd h (by simp)
    | clear =>
      simp only [runOps] at h
      exact ih h

/-! The claims. -/

/-- C1: for every capacity `N > 0` and every sequence of `k` additions with
`1 ≤ k ≤ N`, `median` returns the true median of exactly those `k` values
(odd `k`: the sorted element at index `k / 2`; even `k`: the average of the
sorted elements at indices `k / 2 - 1` and `k / 2`), independent of their
arrival order. -/
theorem C1_median_below_capacity (N : Nat) (xs : List ℚ) (s : MovingMedian)
    (hN : 0 < N) (h1 : 1 ≤ xs.length) (h2 : xs.length ≤ N)
    (hrun : runAdds N (MovingMedian.new N) xs = some s) :
    s.median = some (trueMedian xs) ∧
      ∀ ys : List ℚ, ys.Perm xs → trueMedian ys = trueMedian xs := by
  obtain ⟨t, hrun', hlen, hcount, hidx, hpre, hrot⟩ := runAdds_spec N hN xs
  rw [hrun'] at hrun
  obtain rfl := Option.some_inj.mp hrun
  constructor
  · have hc : t.count = xs.length := by rw [hcount]; omega
    have hbt : t.buffer.take t.count = xs := by
      rw [hc, hpre h2]
      exact List.take_left' rfl
    rw [median_eq t (by rw [hc]; omega) (by rw [hc, hlen]; exact h2), hbt]
  · intro ys hperm
    exact trueMedian_perm ys xs hperm

/-- Witness for C1: capacity 2, additions `[3, 1]`. -/
theorem C1_median_below_capacity_witness :
    (⟨[3, 1], 0, 2⟩ : MovingMedian).median = some (trueMedian [3, 1]) :=
  (C1_median_below_capacity 2 [3, 1] ⟨[3, 1], 0, 2⟩ (by decide) (by decide) (by decide) rfl).1

/-- C2: for every capacity `N > 0` and every sequence of `k > N` additions,
`median` returns the true median of only the `N` most recently added
values; the `k - N` older values do not influence the result. -/
theorem C2_median_after_wrap (N : Nat) (xs : List ℚ) (s : MovingMedian)
    (hN : 0 < N) (h : N < xs.length)
    (hrun : runAdds N (MovingMedian.new N) xs = some s) :
    s.median = some (trueMedian (xs.drop (xs.length - N))) := by
  obtain ⟨t, hrun', hlen, hcount, hidx, hpre, hrot⟩ := runAdds_spec N hN xs
  rw [hrun'] at hrun
  obtain rfl := Option.some_inj.mp hrun
  have hc : t.count = N := by rw [hcount]; omega
  have hperm : t.buffer.Perm (xs.drop (xs.length - N)) := by
    rw [← hrot (le_of_lt h)]
    exact (List.rotate_perm _ _).symm
  have hbt : t.buffer.take t.count = t.buffer := by
    rw [hc, ← hlen]
    exact List.take_length _
  rw [median_eq t (by omega) (le_of_eq (hc.trans hlen.symm)), hbt]
  exact congrArg some (trueMedian_perm _ _ hperm)

/-- Witness for C2: capacity 1, additions `[5, 7]` — only the last value
survives. -/
theorem C2_median_after_wrap_witness :
    (⟨[7], 0, 1⟩ : MovingMedian).median = some (trueMedian ([5, 7].drop 1)) :=
  C2_median_after_wrap 1 [5, 7] ⟨[7], 0, 1⟩ (by decide) (by decide) rfl

/-- C3: whenever the live count is zero — after construction, after
`clear`, or in any state with `count = 0` — `median` returns exactly the
zero value rather than failing. -/
theorem C3_empty_median_zero (N : Nat) (s : MovingMedian) :
    (MovingMedian.new N).median = some 0 ∧
      (s.clear N).median = some 0 ∧
      (s.count = 0 → s.median = some 0) := by
  refine ⟨?_, ?_, fun h => ?_⟩
  · unfold MovingMedian.median
    rw [if_pos (show (MovingMedian.new N).count = 0 by rfl)]
  · unfold MovingMedian.median
    rw [if_pos (show (MovingMedian.clear N s).count = 0 by rfl)]
  · unfold MovingMedian.median
    rw [if_pos h]

/-- Witness for C3: a state with stale buffer contents but `count = 0`. -/
theorem C3_empty_median_zero_witness :
    (⟨[1, 2], 0, 0⟩ : MovingMedian).median = some 0 :=
  (C3_empty_median_zero 2 ⟨[1, 2], 0, 0⟩).2.2 rfl

/-- C4: `clear` produces exactly the state of `new` — all slots zero,
write index 0, count 0 — so the cleared buffer reports a zero median and
behaves identically to a fresh instance under every subsequent operation
sequence. -/
theorem C4_clear_equals_new (N : Nat) (s : MovingMedian) :
    s.clear N = MovingMedian.new N ∧
      (s.clear N).buffer = List.replicate N 0 ∧
      (s.clear N).index = 0 ∧
      (s.clear N).count = 0 ∧
      (s.clear N).median = some 0 ∧
      ∀ ops : List Op, runOps N (s.clear N) ops = runOps N (MovingMedian.new N) ops := by
  refine ⟨rfl, rfl, rfl, rfl, ?_, fun ops => rfl⟩
  unfold MovingMedian.median
  rw [if_pos (show (MovingMedian.clear N s).count = 0 by rfl)]

/-- C5: `median` reads only the first `count` entries of the buffer; the
stale entries beyond the live prefix (and the write index) never influence
the returned value. -/
theorem C5_stale_ignored (c i j : Nat) (b b' : List ℚ)
    (hc : c ≤ b.length) (hc' : c ≤ b'.length) (h : b.take c = b'.take c) :
    MovingMedian.median ⟨b, i, c⟩ = MovingMedian.median ⟨b', j, c⟩ := by
  by_cases h0 : c = 0
  · subst h0
    rfl
  · rw [median_eq ⟨b, i, c⟩ h0 hc, median_eq ⟨b', j, c⟩ h0 hc']
    show some (trueMedian (b.take c)) = some (trueMedian (b'.take c))
    rw [h]

/-- Witness for C5: two buffers agreeing on the live prefix `[1, 2]` but
differing in the stale slot report the same median. -/
theorem C5_stale_ignored_witness :
    MovingMedian.median ⟨[1, 2, 9], 2, 2⟩ = MovingMedian.median ⟨[1, 2, 7], 0, 2⟩ :=
  C5_stale_ignored 2 2 0 [1, 2, 9] [1, 2, 7] (by decide) (by decide) rfl

/-- C6: on a well-formed state, `add_value` writes the value at the current
write index, advances the index to `(index + 1) % N`, and increments the
count by one unless it already equals `N`, in which case it stays `N`. -/
theorem C6_add_value_effect (N : Nat) (s : MovingMedian) (v : ℚ)
    (hN : 0 < N) (hlen : s.buffer.length = N) (hidx : s.index < N) (hcnt : s.count ≤ N) :
    ∃ t, s.add_value N v = some t ∧
      t.buffer = s.buffer.set s.index v ∧
      t.index = (s.index + 1) % N ∧
      (s.count < N → t.count = s.count + 1) ∧
      (s.count = N → t.count = N) := by
  refine ⟨_, add_value_eq N s v hN hlen hidx, rfl, rfl, fun h => ?_, fun h => ?_⟩
  · show (if s.count < N then s.count + 1 else s.count) = s.count + 1
    rw [if_pos h]
  · show (if s.count < N then s.count + 1 else s.count) = N
    rw [if_neg (by omega)]
    exact h

/-- Witness for C6: a full capacity-2 buffer keeps `count = 2` and wraps
the index. -/
theorem C6_add_value_effect_witness :
    ∃ t, (⟨[1, 2], 1, 2⟩ : MovingMedian).add_value 2 5 = some t ∧
      t.buffer = List.set [1, 2] 1 5 ∧
      t.index = (1 + 1) % 2 ∧
      ((2 : Nat) < 2 → t.count = 2 + 1) ∧
      ((2 : Nat) = 2 → t.count = 2) :=
  C6_add_value_effect 2 ⟨[1, 2], 1, 2⟩ 5 (by decide) (by decide) (by decide) (by decide)

/-- C7: `median` has no side effects — the state it leaves behind is the
state it was called on, a repeated call returns the same value, and a
follow-up `add_value` behaves exactly as it would have without the query. -/
theorem C7_median_pure (s : MovingMedian) (q : ℚ) (t : MovingMedian)
    (h : s.medianFull = some (q, t)) :
    t = s ∧ t.medianFull = some (q, t) ∧
      ∀ (N : Nat) (v : ℚ), t.add_value N v = s.add_value N v := by
  unfold MovingMedian.medianFull at h ⊢
  cases hm : s.median with
  | none =>
    rw [hm] at h
    exact absurd h (by simp)
  | some r =>
    rw [hm, Option.map_some'] at h
    injection h with h2
    have hq : r = q := congrArg Prod.fst h2
    have hst : s = t := congrArg Prod.snd h2
    subst hst
    refine ⟨rfl, ?_, fun N v => rfl⟩
    rw [hm, Option.map_some', hq]

/-- Witness for C7 on a full capacity-3 buffer. -/
theorem C7_median_pure_witness :
    (⟨[2, 1, 5], 0, 3⟩ : MovingMedian) = ⟨[2, 1, 5], 0, 3⟩ ∧
      (⟨[2, 1, 5], 0, 3⟩ : MovingMedian).medianFull = some (2, ⟨[2, 1, 5], 0, 3⟩) ∧
      ∀ (N : Nat) (v : ℚ),
        (⟨[2, 1, 5], 0, 3⟩ : MovingMedian).add_value N v =
          (⟨[2, 1, 5], 0, 3⟩ : MovingMedian).add_value N v :=
  C7_median_pure ⟨[2, 1, 5], 0, 3⟩ 2 ⟨[2, 1, 5], 0, 3⟩ (by decide)

/-- C8: with capacity `N = 0`, construction is not validated (every
reachable state is the unvalidated `new 0`), and `add_value` always hits
its panic branch: the store into `buffer[index]` is out of bounds. -/
theorem C8_zero_capacity_add_fails (s : MovingMedian) (v : ℚ) (h : Reachable 0 s) :
    s.add_value 0 v = none ∧ ¬ s.index < s.buffer.length ∧ s = MovingMedian.new 0 := by
  obtain ⟨ops, hops⟩ := h
  obtain rfl := runOps_zero ops s hops
  refine ⟨new_zero_add_none v, ?_, rfl⟩
  simp [MovingMedian.new]

/-- Witness for C8 at the freshly constructed zero-capacity state. -/
theorem C8_zero_capacity_add_fails_witness :
    (MovingMedian.new 0).add_value 0 5 = none :=
  (C8_zero_capacity_add_fails (MovingMedian.new 0) 5 ⟨[], rfl⟩).1

/-- C9: for every capacity `N > 0`, every reachable state satisfies the
structural invariant — `count ≤ N`, `index < N`, and `index = count`
while `count < N` (the live samples fill exactly the prefix) — and both
`add_value` and `clear` preserve it. -/
theorem C9_reachable_invariant (N : Nat) (s : MovingMedian)
    (hN : 0 < N) (h : Reachable N s) :
    Inv N s ∧ (∀ v t, s.add_value N v = some t → Inv N t) ∧ Inv N (s.clear N) := by
  have hinv := reachable_inv N hN s h
  refine ⟨hinv, fun v t hvt => ?_, inv_clear N s hN⟩
  obtain ⟨t1, ht1, hinv1⟩ := inv_add N s v hN hinv
  rw [hvt] at ht1
  obtain rfl := Option.some_inj.mp ht1
  exact hinv1

/-- Witness for C9 at capacity 1 and the initial state. -/
theorem C9_reachable_invariant_witness :
    Inv 1 (MovingMedian.new 1) ∧
      (∀ v t, (MovingMedian.new 1).add_value 1 v = some t → Inv 1 t) ∧
      Inv 1 ((MovingMedian.new 1).clear 1) :=
  C9_reachable_invariant 1 (MovingMedian.new 1) (by decide) ⟨[], rfl⟩

/-- C10: for every capacity `N > 0` and every reachable state, `add_value`
and `median` are total — every guarded index and subtraction stays in
bounds, so the `Option`-returning embedding never reaches its `none`
branch. -/
theorem C10_operations_total (N : Nat) (s : MovingMedian) (v : ℚ)
    (hN : 0 < N) (h : Reachable N s) :
    (s.add_value N v).isSome ∧ s.median.isSome := by
  have hinv := reachable_inv N hN s h
  obtain ⟨t, ht, _⟩ := inv_add N s v hN hinv
  obtain ⟨q, hq⟩ := median_isSome N s hinv
  rw [ht, hq]
  exact ⟨rfl, rfl⟩

/-- Witness for C10 at capacity 1 and the initial state. -/
theorem C10_operations_total_witness :
    ((MovingMedian.new 1).add_value 1 4).isSome ∧ (MovingMedian.new 1).median.isSome :=
  C10_operations_total 1 (MovingMedian.new 1) 4 (by decide) ⟨[], rfl⟩

end MovingMedianSpec
